import Mathlib

/-!
Verification of the in-circuit sponge core of `rozbb/sponge`
(`src/constraints.rs`), as a shallow embedding.

The circuit field `CF` is modelled as `ZMod q` and the target field `F`
as `ZMod p`, for arbitrary moduli `p q : ℕ`.  The constraint system
behind `ConstraintSystemRef<CF>` is an explicit record of allocated
witnesses, their assignment, and the enforced R1CS constraints; its two
fallible primitives (`new_witness_variable`, `enforce_constraint`) fail
exactly on an unavailable handle, the single synthesis-failure kind of
the design.  Code paths that call `.unwrap()` on such a `Result` are
modelled as producing a distinguished `panicked` outcome, while `?`
propagates the error value.
-/

namespace Sponge

/-- Synthesis errors raised by constraint-system primitives
(`ark_relations::r1cs::SynthesisError`). -/
inductive SynthesisError where
  | missingCS
  | assignmentMissing
deriving DecidableEq

/-- An R1CS variable over the circuit field (`ark_relations` `Variable`):
the constant-one input or an allocated witness. -/
inductive Var where
  | one
  | witness (i : ℕ)
deriving DecidableEq

/-- `LinearCombination<CF>`: a list of (coefficient, variable) terms,
represented up to evaluation. -/
abbrev LinComb (q : ℕ) := List (ZMod q × Var)

/-- Scaling a linear combination by a constant
(`LinearCombination * CF` in `ark_relations`). -/
def LinComb.scale {q : ℕ} (c : ZMod q) (l : LinComb q) : LinComb q :=
  l.map fun t => (t.1 * c, t.2)

/-- One R1CS constraint `a * b = c`. -/
structure Constraint (q : ℕ) where
  a : LinComb q
  b : LinComb q
  c : LinComb q
deriving DecidableEq

/-- The constraint system behind `ConstraintSystemRef<CF>`.  `unavailable`
models a handle on which allocation and enforcement fail (a
`ConstraintSystemRef::None` or already-finalized system). -/
structure CSState (q : ℕ) where
  unavailable : Bool
  numWitness : ℕ
  assignment : List (ZMod q)
  constraints : List (Constraint q)
deriving DecidableEq

/-- `new_witness_variable`: allocate a fresh witness holding `v`. -/
def CSState.newWitness {q : ℕ} (cs : CSState q) (v : ZMod q) :
    Except SynthesisError (Var × CSState q) :=
  if cs.unavailable then .error .missingCS
  else .ok (Var.witness cs.numWitness,
    { cs with numWitness := cs.numWitness + 1,
              assignment := cs.assignment ++ [v] })

/-- `enforce_constraint`: append the constraint `a * b = c`. -/
def CSState.enforceConstraint {q : ℕ} (cs : CSState q) (a b c : LinComb q) :
    Except SynthesisError (CSState q) :=
  if cs.unavailable then .error .missingCS
  else .ok { cs with constraints := cs.constraints ++ [⟨a, b, c⟩] }

/-- Value of a variable under a total witness assignment `α`
(index `i` for `Var.witness i`). -/
def evalVar {q : ℕ} (α : ℕ → ZMod q) : Var → ZMod q
  | .one => 1
  | .witness i => α i

/-- Evaluation of a linear combination under `α`. -/
def LinComb.eval {q : ℕ} (α : ℕ → ZMod q) (l : LinComb q) : ZMod q :=
  (l.map fun t => t.1 * evalVar α t.2).sum

/-- Satisfaction of one R1CS constraint. -/
def Constraint.holdsUnder {q : ℕ} (α : ℕ → ZMod q) (c : Constraint q) : Prop :=
  LinComb.eval α c.a * LinComb.eval α c.b = LinComb.eval α c.c

instance {q : ℕ} (α : ℕ → ZMod q) (c : Constraint q) :
    Decidable (c.holdsUnder α) := by
  unfold Constraint.holdsUnder; infer_instance

/-- Satisfaction of the whole system: every enforced constraint holds. -/
def CSState.satisfiedBy {q : ℕ} (cs : CSState q) (α : ℕ → ZMod q) : Prop :=
  ∀ c ∈ cs.constraints, c.holdsUnder α

instance {q : ℕ} (cs : CSState q) (α : ℕ → ZMod q) :
    Decidable (cs.satisfiedBy α) :=
  List.decidableBAll _ cs.constraints

/-- `Boolean<CF>` as consumed by the reconstruction: the result of
`bit.value().unwrap_or_default()` together with `bit.lc()`. -/
structure BooleanVar (q : ℕ) where
  value : Bool
  lc : LinComb q
deriving DecidableEq

/-- Outcome of running source code that can return `Ok`, return a
`SynthesisError` via `?`, or abort through `.unwrap()` on a failed
`Result` (a panic). -/
inductive PRes (α : Type) where
  | ok (a : α)
  | err (e : SynthesisError)
  | panicked
deriving DecidableEq

/-- Emulation parameters returned by
`ark_nonnative_field::params::get_params` — an external collaborator,
a pure function of the bit sizes of the two fields and the optimization
policy; the development is parametric in its result. -/
structure NNParams where
  num_limbs : ℕ
  bits_per_limb : ℕ
deriving DecidableEq

/-- `AllocatedNonNativeFieldVar::get_limbs_representations` (external
collaborator, `ark_nonnative_field`): decompose an `F`-element into
`num_limbs` chunks of `bits_per_limb` bits of its integer
representative, most significant limb first, each injected into `CF`. -/
def get_limbs_representations (p q : ℕ) (params : NNParams) (x : ZMod p) :
    List (ZMod q) :=
  (List.range params.num_limbs).map fun k =>
    (((x.val / 2 ^ (params.bits_per_limb * (params.num_limbs - 1 - k)))
        % 2 ^ params.bits_per_limb : ℕ) : ZMod q)

/-- The lookup-table loop of `bits_le_to_nonnative`: starting from
`cur = F::one()`, push the limb representation of `cur` and then double
`cur` in place, `n` times. -/
def lookupTableAux (p q : ℕ) (params : NNParams) :
    ℕ → ZMod p → List (List (ZMod q))
  | 0, _ => []
  | n + 1, cur =>
      get_limbs_representations p q params cur ::
        lookupTableAux p q params n (cur + cur)

/-- `val[k]` after the bit loop of `bits_le_to_nonnative`: the sum of
`lookup_table[j][k]` over the bit positions `j` whose witnessed value is
true. -/
def limbVal {q : ℕ} (table : List (List (ZMod q)))
    (bits : List (BooleanVar q)) (k : ℕ) : ZMod q :=
  ∑ j in Finset.range bits.length,
    if (bits.getD j ⟨false, []⟩).value then (table.getD j []).getD k 0 else 0

/-- `lc[k]` after the bit loop: the sum over all bit positions `j` of
`bit.lc()` scaled by `lookup_table[j][k]` (as a term list, accumulated
in position order). -/
def limbLC {q : ℕ} (table : List (List (ZMod q)))
    (bits : List (BooleanVar q)) (k : ℕ) : LinComb q :=
  ((List.range bits.length).map fun j =>
    LinComb.scale ((table.getD j []).getD k 0) (bits.getD j ⟨false, []⟩).lc).flatten

/-- The vector `val` of the source, one entry per limb index. -/
def limbVals {q : ℕ} (params : NNParams) (table : List (List (ZMod q)))
    (bits : List (BooleanVar q)) : List (ZMod q) :=
  (List.range params.num_limbs).map (limbVal table bits)

/-- The vector `lc` of the source, one entry per limb index. -/
def limbLCs {q : ℕ} (params : NNParams) (table : List (List (ZMod q)))
    (bits : List (BooleanVar q)) : List (LinComb q) :=
  (List.range params.num_limbs).map (limbLC table bits)

/-- The per-limb loop of `bits_le_to_nonnative` (lines 60-67): allocate a
witness for `val[k]`, subtract it from `lc[k]`, and enforce the linear
constraint `0 * 0 = lc[k] - limb`.  Both fallible calls are `.unwrap()`ed
in the source, so their failure aborts (panics) instead of returning an
error. -/
def allocLimbs {q : ℕ} (cs : CSState q) :
    List (ZMod q × LinComb q) → PRes (List Var × CSState q)
  | [] => .ok ([], cs)
  | (v, l) :: rest =>
    match cs.newWitness v with
    | .error _ => .panicked
    | .ok (x, cs1) =>
      match cs1.enforceConstraint [] [] (l ++ [((-1 : ZMod q), x)]) with
      | .error _ => .panicked
      | .ok cs2 =>
        match allocLimbs cs2 rest with
        | .ok (xs, cs3) => .ok (x :: xs, cs3)
        | .err e => .err e
        | .panicked => .panicked

/-- `AllocatedNonNativeFieldVar<F, CF>` as produced by the reconstruction:
the limb variables plus the reduction bookkeeping (the stored cs handle
and phantom are omitted; the source always wraps the result as
`NonNativeFieldVar::Var`). -/
structure NonNativeVarGadget (q : ℕ) where
  limbs : List Var
  num_of_additions_over_normal_form : ZMod q
  is_in_the_normal_form : Bool
deriving DecidableEq

/-- The per-sequence loop of `bits_le_to_nonnative` (lines 43-78). -/
def bitsLeLoop {q : ℕ} (params : NNParams) (table : List (List (ZMod q)))
    (cs : CSState q) :
    List (List (BooleanVar q)) → PRes (List (NonNativeVarGadget q) × CSState q)
  | [] => .ok ([], cs)
  | bits :: rest =>
    match allocLimbs cs ((limbVals params table bits).zip (limbLCs params table bits)) with
    | .err e => .err e
    | .panicked => .panicked
    | .ok (limbs, cs1) =>
      match bitsLeLoop params table cs1 rest with
      | .ok (out, cs2) => .ok (⟨limbs, 0, true⟩ :: out, cs2)
      | .err e => .err e
      | .panicked => .panicked

/-- `max_nonnative_bits` (lines 21-23): fold of `max` over the input
sequence lengths. -/
def maxBitsOf {q : ℕ} (seqs : List (List (BooleanVar q))) : ℕ :=
  seqs.foldl (fun m bits => max m bits.length) 0

/-- `bits_le_to_nonnative` (src/constraints.rs lines 15-81).  The
emulation parameters are an argument because `get_params` is an external
pure function of the bit sizes of the two fields. -/
def bits_le_to_nonnative (p q : ℕ) (params : NNParams) (cs : CSState q)
    (all_nonnative_bits_le : List (List (BooleanVar q))) :
    PRes (List (NonNativeVarGadget q) × CSState q) :=
  let max_nonnative_bits := maxBitsOf all_nonnative_bits_le
  let lookup_table := lookupTableAux p q params max_nonnative_bits 1
  bitsLeLoop params lookup_table cs all_nonnative_bits_le

/-- Value of a variable under the assignment recorded in the system. -/
def witnessOf {q : ℕ} (cs : CSState q) : Var → ZMod q
  | .one => 1
  | .witness i => cs.assignment.getD i 0

/-- `AllocatedNonNativeFieldVar::value` / `limbs_to_value` (external
collaborator): recompose limb values, most significant limb first, in
the target field. -/
def limbs_to_value (p q : ℕ) (bpl : ℕ) (lv : List (ZMod q)) : ZMod p :=
  lv.foldl (fun acc l => acc * 2 ^ bpl + (l.val : ZMod p)) 0

/-- The witnessed target-field value of a produced gadget. -/
def gadgetValue (p q : ℕ) (params : NNParams) (cs : CSState q)
    (g : NonNativeVarGadget q) : ZMod p :=
  limbs_to_value p q params.bits_per_limb (g.limbs.map (witnessOf cs))

/-- The little-endian value of a boolean sequence:
`Σ bit[j] * 2^j` over ℕ. -/
def bitsLEValue (bits : List Bool) : ℕ :=
  ∑ j in Finset.range bits.length, if bits.getD j false then 2 ^ j else 0

/-! ### Characterization helpers for the reconstruction -/

/-- The variables allocated by `n` consecutive `new_witness` calls
starting at index `w0`. -/
def mkVars (w0 n : ℕ) : List Var :=
  (List.range n).map fun k => Var.witness (w0 + k)

/-- The constraints emitted by the per-limb loop when it starts with
witness counter `w0` and processes the given (value, lc) pairs. -/
def limbConstraintsFrom {q : ℕ} (w0 : ℕ)
    (pairs : List (ZMod q × LinComb q)) : List (Constraint q) :=
  (List.range pairs.length).map fun k =>
    ⟨[], [], (pairs.getD k (0, [])).2 ++ [((-1 : ZMod q), Var.witness (w0 + k))]⟩

/-- The system state after the per-limb loop. -/
def afterAlloc {q : ℕ} (cs : CSState q)
    (pairs : List (ZMod q × LinComb q)) : CSState q :=
  { cs with numWitness := cs.numWitness + pairs.length,
            assignment := cs.assignment ++ pairs.map Prod.fst,
            constraints := cs.constraints ++ limbConstraintsFrom cs.numWitness pairs }

/-- The gadgets produced by the per-sequence loop, starting at witness
counter `w0`. -/
def batchGadgets {q : ℕ} (params : NNParams) :
    ℕ → List (List (BooleanVar q)) → List (NonNativeVarGadget q)
  | _, [] => []
  | w0, _ :: rest =>
      ⟨mkVars w0 params.num_limbs, 0, true⟩ ::
        batchGadgets params (w0 + params.num_limbs) rest

/-- The witness values appended by the per-sequence loop. -/
def batchAssign {q : ℕ} (params : NNParams) (table : List (List (ZMod q))) :
    List (List (BooleanVar q)) → List (ZMod q)
  | [] => []
  | bits :: rest => limbVals params table bits ++ batchAssign params table rest

/-- The constraints appended by the per-sequence loop. -/
def batchConstraints {q : ℕ} (params : NNParams) (table : List (List (ZMod q))) :
    ℕ → List (List (BooleanVar q)) → List (Constraint q)
  | _, [] => []
  | w0, bits :: rest =>
      limbConstraintsFrom w0
          ((limbVals params table bits).zip (limbLCs params table bits))
        ++ batchConstraints params table (w0 + params.num_limbs) rest

/-- Reconstructing each sequence alone, in separate calls threaded through
the same constraint system (the comparison program of the batch-independence
property). -/
def foldSeparate (p q : ℕ) (params : NNParams) (cs : CSState q) :
    List (List (BooleanVar q)) → PRes (List (NonNativeVarGadget q) × CSState q)
  | [] => .ok ([], cs)
  | bits :: rest =>
    match bits_le_to_nonnative p q params cs [bits] with
    | .err e => .err e
    | .panicked => .panicked
    | .ok (gs, cs1) =>
      match foldSeparate p q params cs1 rest with
      | .ok (gs2, cs2) => .ok (gs ++ gs2, cs2)
      | .err e => .err e
      | .panicked => .panicked

/-! ### The generic sponge-gadget interface and its default methods -/

/-- Modelled from the spec: `FieldElementSize` (crate root, not under
`src/`) — either the full native bit-length of `F`, or an explicit
truncated bit count. -/
inductive FieldElementSize where
  | Full
  | Truncated (num_bits : ℕ)
deriving DecidableEq

/-- Modelled from the spec: `FieldElementSize::num_bits::<F>` (crate
root, not under `src/`) — the required bit-length of one squeezed
element: the full native bit-length `pbits` of `F`, or the explicit
truncated count. -/
def FieldElementSize.numBits (pbits : ℕ) : FieldElementSize → ℕ
  | .Full => pbits
  | .Truncated n => n

/-- `FpVar<CF>`: a constant or an allocated circuit-field variable. -/
inductive FpVarE (q : ℕ) where
  | const (c : ZMod q)
  | varE (i : ℕ)
deriving DecidableEq

/-- The primitive capabilities of a `CryptographicSpongeVar` instance
that the default (interface-level) methods consume, over an opaque state
type `σ`.  `csO` reads the shared constraint-system handle and `setCsO`
writes it back: `ConstraintSystemRef` is a shared, reference-counted
handle, so the mutations `bits_le_to_nonnative` performs through a
captured copy of the handle are visible to the sponge. -/
structure SpongeVarOps (q : ℕ) (σ : Type) where
  csO : σ → CSState q
  setCsO : σ → CSState q → σ
  squeezeBitsO : σ → ℕ → Except SynthesisError (List (BooleanVar q) × σ)

/-- `total_bits` (lines 117-119): the fold summing the per-size bit
counts. -/
def totalBitsOf (pbits : ℕ) (sizes : List FieldElementSize) : ℕ :=
  sizes.foldl (fun total_bits size => total_bits + size.numBits pbits) 0

/-- The window loop (lines 125-132): split the squeezed bit stream into
one chunk per size descriptor, in order. -/
def chunkBits {q : ℕ} (pbits : ℕ) :
    List FieldElementSize → List (BooleanVar q) → List (List (BooleanVar q))
  | [], _ => []
  | size :: rest, bits_window =>
      bits_window.take (size.numBits pbits) ::
        chunkBits pbits rest (bits_window.drop (size.numBits pbits))

/-- Default method `squeeze_nonnative_field_elements_with_sizes`
(lines 107-137).  The handle captured by `let cs = self.cs()` before the
squeeze aliases the live system, so at the reconstruction call it
denotes the post-squeeze system `P.csO self1`. -/
def squeezeNonnativeWithSizes (p q : ℕ) {σ : Type} (P : SpongeVarOps q σ)
    (params : NNParams) (pbits : ℕ) (self : σ) (sizes : List FieldElementSize) :
    PRes ((List (NonNativeVarGadget q) × List (List (BooleanVar q))) × σ) :=
  if sizes.length = 0 then .ok (([], []), self)
  else
    let total_bits := totalBitsOf pbits sizes
    match P.squeezeBitsO self total_bits with
    | .error e => .err e
    | .ok (bits, self1) =>
      let dest_bits := chunkBits pbits sizes bits
      match bits_le_to_nonnative p q params (P.csO self1) dest_bits with
      | .ok (dest_gadgets, cs1) => .ok ((dest_gadgets, dest_bits), P.setCsO self1 cs1)
      | .err e => .err e
      | .panicked => .panicked

/-- Default method `squeeze_nonnative_field_elements` (lines 139-146):
the sized version on `n` copies of the full-size descriptor. -/
def squeezeNonnativeFull (p q : ℕ) {σ : Type} (P : SpongeVarOps q σ)
    (params : NNParams) (pbits : ℕ) (self : σ) (num_elements : ℕ) :
    PRes ((List (NonNativeVarGadget q) × List (List (BooleanVar q))) × σ) :=
  squeezeNonnativeWithSizes p q P params pbits self
    (List.replicate num_elements FieldElementSize.Full)

/-- Written from the words of the spec, for the squeeze/size-consistency
comparison: squeeze the total bit count once, then slice the stream at
the size boundaries (chunk `i` starts after the bits of the sizes before
it), feeding the slices to `bits_le_to_nonnative`. -/
def manualSqueezeAndSlice (p q : ℕ) {σ : Type} (P : SpongeVarOps q σ)
    (params : NNParams) (pbits : ℕ) (self : σ) (sizes : List FieldElementSize) :
    PRes ((List (NonNativeVarGadget q) × List (List (BooleanVar q))) × σ) :=
  let total_bits := totalBitsOf pbits sizes
  match P.squeezeBitsO self total_bits with
  | .error e => .err e
  | .ok (bits, self1) =>
    let slices := (List.range sizes.length).map fun i =>
      (bits.drop (totalBitsOf pbits (sizes.take i))).take
        ((sizes.getD i FieldElementSize.Full).numBits pbits)
    match bits_le_to_nonnative p q params (P.csO self1) slices with
    | .ok (dest_gadgets, cs1) => .ok ((dest_gadgets, slices), P.setCsO self1 cs1)
    | .err e => .err e
    | .panicked => .panicked

/-- Instrumentation: the same primitives with a counter of how many
times `squeeze_bits` has been invoked on the wrapped sponge. -/
def countingOps {q : ℕ} {σ : Type} (P : SpongeVarOps q σ) :
    SpongeVarOps q (σ × ℕ) where
  csO := fun s => P.csO s.1
  setCsO := fun s cs => (P.setCsO s.1 cs, s.2)
  squeezeBitsO := fun s n =>
    match P.squeezeBitsO s.1 n with
    | .error e => .error e
    | .ok (bits, s1) => .ok (bits, (s1, s.2 + 1))

/-! ### The domain-separation wrapper -/

/-- The full capability set of a wrapped concrete sponge gadget `SV`
(the five trait primitives plus its sized non-native squeeze method),
as state transformers over an opaque state `σ`, together with the
squeeze-bits output observed at a given state. -/
structure SpongeGadget (q : ℕ) (σ : Type) where
  newG : CSState q → σ
  csG : σ → CSState q
  absorbG : σ → List (FpVarE q) → σ
  squeezeBytesG : σ → ℕ → σ
  squeezeBitsG : σ → ℕ → σ
  squeezeFieldElementsG : σ → ℕ → σ
  squeezeNonnativeSizedG : σ → List FieldElementSize → σ
  bitsOutG : σ → ℕ → List (BooleanVar q)

/-- `DomainSeparatedSpongeVar` (lines 149-163): the wrapped sponge and
the `domain_separated` flag (the phantom markers are omitted). -/
structure DSSpongeVar (σ : Type) where
  sponge : σ
  domain_separated : Bool

/-- `DomainSeparatedSpongeVar::new` (lines 196-204). -/
def DSSpongeVar.newDS {q : ℕ} {σ : Type} (G : SpongeGadget q σ)
    (cs : CSState q) : DSSpongeVar σ :=
  { sponge := G.newG cs, domain_separated := false }

/-- `try_separate_domain` (lines 172-185).  `tag` models
`D::domain().to_field_elements().unwrap()` — the compile-time domain
identifier encoded (per the spec, crate-root code not under `src/`)
into circuit-field elements, absorbed as constants. -/
def try_separate_domain {q : ℕ} {σ : Type} (G : SpongeGadget q σ)
    (tag : List (ZMod q)) (s : DSSpongeVar σ) : DSSpongeVar σ :=
  if s.domain_separated = false then
    { sponge := G.absorbG s.sponge (tag.map FpVarE.const),
      domain_separated := true }
  else s

/-- Wrapper `absorb` (lines 210-213). -/
def DSSpongeVar.absorbDS {q : ℕ} {σ : Type} (G : SpongeGadget q σ)
    (tag : List (ZMod q)) (s : DSSpongeVar σ) (input : List (FpVarE q)) :
    DSSpongeVar σ :=
  let s1 := try_separate_domain G tag s
  { s1 with sponge := G.absorbG s1.sponge input }

/-- Wrapper `squeeze_bytes` (lines 215-218). -/
def DSSpongeVar.squeezeBytesDS {q : ℕ} {σ : Type} (G : SpongeGadget q σ)
    (tag : List (ZMod q)) (s : DSSpongeVar σ) (n : ℕ) : DSSpongeVar σ :=
  let s1 := try_separate_domain G tag s
  { s1 with sponge := G.squeezeBytesG s1.sponge n }

/-- Wrapper `squeeze_bits` (lines 220-223), with the observed output. -/
def DSSpongeVar.squeezeBitsDS {q : ℕ} {σ : Type} (G : SpongeGadget q σ)
    (tag : List (ZMod q)) (s : DSSpongeVar σ) (n : ℕ) :
    List (BooleanVar q) × DSSpongeVar σ :=
  let s1 := try_separate_domain G tag s
  (G.bitsOutG s1.sponge n, { s1 with sponge := G.squeezeBitsG s1.sponge n })

/-- Wrapper `squeeze_field_elements` (lines 225-231). -/
def DSSpongeVar.squeezeFieldElementsDS {q : ℕ} {σ : Type} (G : SpongeGadget q σ)
    (tag : List (ZMod q)) (s : DSSpongeVar σ) (n : ℕ) : DSSpongeVar σ :=
  let s1 := try_separate_domain G tag s
  { s1 with sponge := G.squeezeFieldElementsG s1.sponge n }

/-- Wrapper `squeeze_nonnative_field_elements_with_sizes`
(lines 233-240). -/
def DSSpongeVar.squeezeNonnativeSizedDS {q : ℕ} {σ : Type} (G : SpongeGadget q σ)
    (tag : List (ZMod q)) (s : DSSpongeVar σ) (sizes : List FieldElementSize) :
    DSSpongeVar σ :=
  let s1 := try_separate_domain G tag s
  { s1 with sponge := G.squeezeNonnativeSizedG s1.sponge sizes }

/-- Wrapper `cs` (lines 206-208): read the handle of the wrapped sponge. -/
def DSSpongeVar.csDS {q : ℕ} {σ : Type} (G : SpongeGadget q σ)
    (s : DSSpongeVar σ) : CSState q :=
  G.csG s.sponge

/-- One public call on the wrapper. -/
inductive WrapperOp (q : ℕ) where
  | absorbW (input : List (FpVarE q))
  | squeezeBytesW (n : ℕ)
  | squeezeBitsW (n : ℕ)
  | squeezeFieldElementsW (n : ℕ)
  | squeezeNonnativeSizedW (sizes : List FieldElementSize)
  | csW
deriving DecidableEq

/-- State effect of one public call on the wrapper (`csW` only reads). -/
def stepOp {q : ℕ} {σ : Type} (G : SpongeGadget q σ) (tag : List (ZMod q))
    (s : DSSpongeVar σ) : WrapperOp q → DSSpongeVar σ
  | .absorbW input => s.absorbDS G tag input
  | .squeezeBytesW n => s.squeezeBytesDS G tag n
  | .squeezeBitsW n => (s.squeezeBitsDS G tag n).2
  | .squeezeFieldElementsW n => s.squeezeFieldElementsDS G tag n
  | .squeezeNonnativeSizedW sizes => s.squeezeNonnativeSizedDS G tag sizes
  | .csW => s

/-- Running a sequence of public calls on the wrapper. -/
def runOps {q : ℕ} {σ : Type} (G : SpongeGadget q σ) (tag : List (ZMod q))
    (s : DSSpongeVar σ) : List (WrapperOp q) → DSSpongeVar σ
  | [] => s
  | op :: rest => runOps G tag (stepOp G tag s op) rest

/-- A record of one call forwarded to the wrapped sponge. -/
inductive CallRec (q : ℕ) where
  | absorbC (input : List (FpVarE q))
  | squeezeBytesC (n : ℕ)
  | squeezeBitsC (n : ℕ)
  | squeezeFieldElementsC (n : ℕ)
  | squeezeNonnativeSizedC (sizes : List FieldElementSize)
deriving DecidableEq

/-- Instrumentation: the same wrapped sponge, recording every forwarded
call. -/
def loggedGadget {q : ℕ} {σ : Type} (G : SpongeGadget q σ) :
    SpongeGadget q (σ × List (CallRec q)) where
  newG := fun cs => (G.newG cs, [])
  csG := fun s => G.csG s.1
  absorbG := fun s input => (G.absorbG s.1 input, s.2 ++ [.absorbC input])
  squeezeBytesG := fun s n => (G.squeezeBytesG s.1 n, s.2 ++ [.squeezeBytesC n])
  squeezeBitsG := fun s n => (G.squeezeBitsG s.1 n, s.2 ++ [.squeezeBitsC n])
  squeezeFieldElementsG := fun s n =>
    (G.squeezeFieldElementsG s.1 n, s.2 ++ [.squeezeFieldElementsC n])
  squeezeNonnativeSizedG := fun s sizes =>
    (G.squeezeNonnativeSizedG s.1 sizes, s.2 ++ [.squeezeNonnativeSizedC sizes])
  bitsOutG := fun s n => G.bitsOutG s.1 n

/-- Replaying a list of recorded calls against the wrapped sponge. -/
def replayCalls {q : ℕ} {σ : Type} (G : SpongeGadget q σ) :
    σ → List (CallRec q) → σ
  | s, [] => s
  | s, .absorbC input :: rest => replayCalls G (G.absorbG s input) rest
  | s, .squeezeBytesC n :: rest => replayCalls G (G.squeezeBytesG s n) rest
  | s, .squeezeBitsC n :: rest => replayCalls G (G.squeezeBitsG s n) rest
  | s, .squeezeFieldElementsC n :: rest =>
      replayCalls G (G.squeezeFieldElementsG s n) rest
  | s, .squeezeNonnativeSizedC sizes :: rest =>
      replayCalls G (G.squeezeNonnativeSizedG s sizes) rest

/-- The call a public wrapper operation forwards (none for `cs`). -/
def forwardOf {q : ℕ} : WrapperOp q → Option (CallRec q)
  | .absorbW input => some (.absorbC input)
  | .squeezeBytesW n => some (.squeezeBytesC n)
  | .squeezeBitsW n => some (.squeezeBitsC n)
  | .squeezeFieldElementsW n => some (.squeezeFieldElementsC n)
  | .squeezeNonnativeSizedW sizes => some (.squeezeNonnativeSizedC sizes)
  | .csW => none

/-- The forwarded calls of an operation sequence, in order. -/
def forwardedOf {q : ℕ} (ops : List (WrapperOp q)) : List (CallRec q) :=
  ops.filterMap forwardOf

/-- Whether any operation in the list forwards a call. -/
def hasFwd {q : ℕ} (ops : List (WrapperOp q)) : Bool :=
  ops.any fun op => (forwardOf op).isSome

/-- The calls the wrapped sponge receives: if some operation forwards,
the tag absorption comes first, then the forwarded calls in order. -/
def expectedCalls {q : ℕ} (tag : List (ZMod q)) (flag : Bool)
    (ops : List (WrapperOp q)) : List (CallRec q) :=
  if flag then forwardedOf ops
  else if hasFwd ops then .absorbC (tag.map FpVarE.const) :: forwardedOf ops
  else []

/-! ### Concrete instances used to witness the theorems -/

/-- A concrete sponge for witnesses: the state is a call counter, the
squeezed bits are all-false constants, the handle is an empty system. -/
def trivialOps (q : ℕ) : SpongeVarOps q ℕ where
  csO := fun _ => ⟨false, 0, [], []⟩
  setCsO := fun s _ => s
  squeezeBitsO := fun s n => .ok (List.replicate n ⟨false, []⟩, s)

/-- An injection of circuit-field variables into boolean gadgets, used to
build a history-distinguishing sponge. -/
def encFp {q : ℕ} : FpVarE q → BooleanVar q
  | .const c => ⟨false, [(c, Var.one)]⟩
  | .varE i => ⟨true, [(0, Var.witness i)]⟩

/-- A concrete wrapped sponge whose state is the exact list of calls it
has received, and whose squeezed bits reveal its first absorbed input —
an idealized sponge that distinguishes histories by their first
absorption. -/
def recorderGadget (q : ℕ) : SpongeGadget q (List (CallRec q)) where
  newG := fun _ => []
  csG := fun _ => ⟨false, 0, [], []⟩
  absorbG := fun h input => h ++ [.absorbC input]
  squeezeBytesG := fun h n => h ++ [.squeezeBytesC n]
  squeezeBitsG := fun h n => h ++ [.squeezeBitsC n]
  squeezeFieldElementsG := fun h n => h ++ [.squeezeFieldElementsC n]
  squeezeNonnativeSizedG := fun h sizes => h ++ [.squeezeNonnativeSizedC sizes]
  bitsOutG := fun h _ =>
    match h with
    | .absorbC x :: _ => x.map encFp
    | _ => []

/-! ## Helper lemmas -/

theorem getD_range_map {α : Type} (f : ℕ → α) {n k : ℕ} (d : α) (h : k < n) :
    ((List.range n).map f).getD k d = f k := by
  rw [List.getD_eq_getElem _ _ (by simpa using h)]
  simp

theorem getD_mem {α : Type} {l : List α} {i : ℕ} (d : α) (h : i < l.length) :
    l.getD i d ∈ l := by
  rw [List.getD_eq_getElem _ _ h]
  exact List.getElem_mem h

theorem le_foldl_max {q : ℕ} (l : List (List (BooleanVar q))) :
    ∀ a : ℕ, a ≤ l.foldl (fun m bits => max m bits.length) a := by
  induction l with
  | nil => intro a; exact le_rfl
  | cons h t ih =>
    intro a
    exact le_trans (le_max_left a h.length) (ih (max a h.length))

theorem length_le_foldl_max {q : ℕ} {x : List (BooleanVar q)}
    (l : List (List (BooleanVar q))) (hx : x ∈ l) :
    ∀ a : ℕ, x.length ≤ l.foldl (fun m bits => max m bits.length) a := by
  induction l with
  | nil => cases hx
  | cons h t ih =>
    intro a
    rcases List.mem_cons.mp hx with rfl | hmem
    · exact le_trans (le_max_right a x.length) (le_foldl_max t _)
    · exact ih hmem _

theorem length_le_maxBitsOf {q : ℕ} {bits : List (BooleanVar q)}
    {seqs : List (List (BooleanVar q))} (h : bits ∈ seqs) :
    bits.length ≤ maxBitsOf seqs :=
  length_le_foldl_max seqs h 0

theorem LinComb.eval_append {q : ℕ} (α : ℕ → ZMod q) (l1 l2 : LinComb q) :
    LinComb.eval α (l1 ++ l2) = LinComb.eval α l1 + LinComb.eval α l2 := by
  simp [LinComb.eval]

theorem mkVars_succ (w n : ℕ) :
    mkVars w (n + 1) = Var.witness w :: mkVars (w + 1) n := by
  unfold mkVars
  rw [List.range_succ_eq_map]
  simp only [List.map_cons, List.map_map, Nat.add_zero]
  refine congrArg _ (List.map_congr_left fun k _ => ?_)
  simp [Function.comp]
  omega

theorem mkVars_length (w n : ℕ) : (mkVars w n).length = n := by
  simp [mkVars]

theorem mkVars_getD {w n k : ℕ} (d : Var) (h : k < n) :
    (mkVars w n).getD k d = Var.witness (w + k) :=
  getD_range_map _ d h

theorem limbConstraintsFrom_length {q : ℕ} (w : ℕ)
    (pairs : List (ZMod q × LinComb q)) :
    (limbConstraintsFrom w pairs).length = pairs.length := by
  simp [limbConstraintsFrom]

theorem limbConstraintsFrom_cons {q : ℕ} (w : ℕ) (v : ZMod q) (l : LinComb q)
    (rest : List (ZMod q × LinComb q)) :
    limbConstraintsFrom w ((v, l) :: rest) =
      ⟨[], [], l ++ [((-1 : ZMod q), Var.witness w)]⟩ ::
        limbConstraintsFrom (w + 1) rest := by
  unfold limbConstraintsFrom
  rw [List.length_cons, List.range_succ_eq_map]
  simp only [List.map_cons, List.map_map, List.getD_cons_zero, Nat.add_zero]
  refine congrArg _ (List.map_congr_left fun k _ => ?_)
  simp [Function.comp, List.getD_cons_succ]
  omega

theorem limbConstraintsFrom_getD {q : ℕ} {w k : ℕ}
    {pairs : List (ZMod q × LinComb q)} (d : Constraint q)
    (h : k < pairs.length) :
    (limbConstraintsFrom w pairs).getD k d =
      ⟨[], [], (pairs.getD k (0, [])).2 ++ [((-1 : ZMod q), Var.witness (w + k))]⟩ :=
  getD_range_map _ d h

theorem allocLimbs_ok {q : ℕ} {cs : CSState q} (h : cs.unavailable = false)
    (pairs : List (ZMod q × LinComb q)) :
    allocLimbs cs pairs =
      .ok (mkVars cs.numWitness pairs.length, afterAlloc cs pairs) := by
  induction pairs generalizing cs with
  | nil =>
    simp [allocLimbs, afterAlloc, mkVars, limbConstraintsFrom]
  | cons p rest ih =>
    obtain ⟨v, l⟩ := p
    rw [List.length_cons, mkVars_succ]
    simp only [allocLimbs, CSState.newWitness, CSState.enforceConstraint, h,
      Bool.false_eq_true, if_false]
    rw [ih rfl]
    simp only [afterAlloc, limbConstraintsFrom_cons, List.length_cons, List.map_cons,
      PRes.ok.injEq, Prod.mk.injEq, CSState.mk.injEq]
    refine ⟨trivial, h.symm, by omega, ?_, ?_⟩
    · simp
    · simp

theorem limbVals_length {q : ℕ} (params : NNParams) (table : List (List (ZMod q)))
    (bits : List (BooleanVar q)) :
    (limbVals params table bits).length = params.num_limbs := by
  simp [limbVals]

theorem limbLCs_length {q : ℕ} (params : NNParams) (table : List (List (ZMod q)))
    (bits : List (BooleanVar q)) :
    (limbLCs params table bits).length = params.num_limbs := by
  simp [limbLCs]

theorem valsLcsZip_length {q : ℕ} (params : NNParams) (table : List (List (ZMod q)))
    (bits : List (BooleanVar q)) :
    ((limbVals params table bits).zip (limbLCs params table bits)).length =
      params.num_limbs := by
  simp [List.length_zip, limbVals_length, limbLCs_length]

theorem valsLcsZip_map_fst {q : ℕ} (params : NNParams) (table : List (List (ZMod q)))
    (bits : List (BooleanVar q)) :
    ((limbVals params table bits).zip (limbLCs params table bits)).map Prod.fst =
      limbVals params table bits :=
  List.map_fst_zip _ _ (by rw [limbVals_length, limbLCs_length])

theorem valsLcsZip_getD {q : ℕ} {params : NNParams} {table : List (List (ZMod q))}
    {bits : List (BooleanVar q)} {k : ℕ} (h : k < params.num_limbs) :
    ((limbVals params table bits).zip (limbLCs params table bits)).getD k (0, []) =
      (limbVal table bits k, limbLC table bits k) := by
  rw [List.getD_eq_getElem _ _ (by rw [valsLcsZip_length]; exact h)]
  rw [List.getElem_zip]
  refine congrArg₂ _ ?_ ?_
  · rw [← List.getD_eq_getElem (d := 0) _ (by rw [limbVals_length]; exact h)]
    exact getD_range_map _ _ h
  · rw [← List.getD_eq_getElem (d := []) _ (by rw [limbLCs_length]; exact h)]
    exact getD_range_map _ _ h

theorem bitsLeLoop_ok {q : ℕ} (params : NNParams) (table : List (List (ZMod q)))
    {cs : CSState q} (h : cs.unavailable = false)
    (seqs : List (List (BooleanVar q))) :
    bitsLeLoop params table cs seqs =
      .ok (batchGadgets params cs.numWitness seqs,
        { cs with
            numWitness := cs.numWitness + seqs.length * params.num_limbs,
            assignment := cs.assignment ++ batchAssign params table seqs,
            constraints := cs.constraints ++
              batchConstraints params table cs.numWitness seqs }) := by
  induction seqs generalizing cs with
  | nil =>
    simp [bitsLeLoop, batchGadgets, batchAssign, batchConstraints]
  | cons bits rest ih =>
    simp only [bitsLeLoop]
    rw [allocLimbs_ok h]
    dsimp only
    rw [ih (show (afterAlloc cs _).unavailable = false from h)]
    simp only [afterAlloc, valsLcsZip_length, valsLcsZip_map_fst,
      batchGadgets, batchAssign, batchConstraints, List.length_cons,
      PRes.ok.injEq, Prod.mk.injEq, CSState.mk.injEq]
    refine ⟨trivial, trivial, by ring, by simp, by simp⟩

theorem bits_le_to_nonnative_ok (p : ℕ) {q : ℕ} (params : NNParams)
    {cs : CSState q} (h : cs.unavailable = false)
    (seqs : List (List (BooleanVar q))) :
    bits_le_to_nonnative p q params cs seqs =
      .ok (batchGadgets params cs.numWitness seqs,
        { cs with
            numWitness := cs.numWitness + seqs.length * params.num_limbs,
            assignment := cs.assignment ++
              batchAssign params (lookupTableAux p q params (maxBitsOf seqs) 1) seqs,
            constraints := cs.constraints ++
              batchConstraints params (lookupTableAux p q params (maxBitsOf seqs) 1)
                cs.numWitness seqs }) :=
  bitsLeLoop_ok params _ h seqs

theorem batchGadgets_length {q : ℕ} (params : NNParams) (w0 : ℕ)
    (seqs : List (List (BooleanVar q))) :
    (batchGadgets params w0 seqs).length = seqs.length := by
  induction seqs generalizing w0 with
  | nil => rfl
  | cons bits rest ih => simp [batchGadgets, ih]

theorem batchGadgets_getD {q : ℕ} (params : NNParams) {w0 i : ℕ}
    {seqs : List (List (BooleanVar q))} (h : i < seqs.length) :
    (batchGadgets params w0 seqs).getD i ⟨[], 0, true⟩ =
      ⟨mkVars (w0 + i * params.num_limbs) params.num_limbs, 0, true⟩ := by
  induction seqs generalizing w0 i with
  | nil => cases h
  | cons bits rest ih =>
    cases i with
    | zero => simp [batchGadgets]
    | succ i =>
      simp only [batchGadgets, List.getD_cons_succ]
      rw [ih (by simpa using h)]
      have harith : w0 + params.num_limbs + i * params.num_limbs =
          w0 + (i + 1) * params.num_limbs := by ring
      rw [harith]

theorem batchAssign_length {q : ℕ} (params : NNParams)
    (table : List (List (ZMod q))) (seqs : List (List (BooleanVar q))) :
    (batchAssign params table seqs).length = seqs.length * params.num_limbs := by
  induction seqs with
  | nil => simp [batchAssign]
  | cons bits rest ih =>
    simp [batchAssign, ih, limbVals_length]
    ring

theorem batchAssign_getD {q : ℕ} (params : NNParams)
    (table : List (List (ZMod q))) {i k : ℕ} {seqs : List (List (BooleanVar q))}
    (hi : i < seqs.length) (hk : k < params.num_limbs) :
    (batchAssign params table seqs).getD (i * params.num_limbs + k) 0 =
      limbVal table (seqs.getD i []) k := by
  induction seqs generalizing i with
  | nil => cases hi
  | cons bits rest ih =>
    cases i with
    | zero =>
      simp only [batchAssign, Nat.zero_mul, Nat.zero_add, List.getD_cons_zero]
      rw [List.getD_append _ _ _ _ (by rw [limbVals_length]; exact hk)]
      exact getD_range_map _ _ hk
    | succ i =>
      have hidx : (i + 1) * params.num_limbs + k =
          params.num_limbs + (i * params.num_limbs + k) := by ring
      simp only [batchAssign, hidx, List.getD_cons_succ]
      rw [List.getD_append_right _ _ _ _ (by rw [limbVals_length]; omega)]
      rw [limbVals_length, Nat.add_sub_cancel_left]
      exact ih (by simpa using hi)

theorem batchConstraints_length {q : ℕ} (params : NNParams)
    (table : List (List (ZMod q))) (w0 : ℕ) (seqs : List (List (BooleanVar q))) :
    (batchConstraints params table w0 seqs).length =
      seqs.length * params.num_limbs := by
  induction seqs generalizing w0 with
  | nil => simp [batchConstraints]
  | cons bits rest ih =>
    simp [batchConstraints, limbConstraintsFrom_length, List.length_zip,
      limbVals_length, limbLCs_length, min_self, ih]
    ring

theorem batchConstraints_getD {q : ℕ} (params : NNParams)
    (table : List (List (ZMod q))) {w0 i k : ℕ}
    {seqs : List (List (BooleanVar q))} (hi : i < seqs.length)
    (hk : k < params.num_limbs) :
    (batchConstraints params table w0 seqs).getD (i * params.num_limbs + k)
        ⟨[], [], []⟩ =
      ⟨[], [], limbLC table (seqs.getD i []) k ++
        [((-1 : ZMod q), Var.witness (w0 + (i * params.num_limbs + k)))]⟩ := by
  induction seqs generalizing w0 i with
  | nil => cases hi
  | cons bits rest ih =>
    cases i with
    | zero =>
      simp only [batchConstraints, Nat.zero_mul, Nat.zero_add, List.getD_cons_zero]
      rw [List.getD_append _ _ _ _
        (by rw [limbConstraintsFrom_length, valsLcsZip_length]; exact hk)]
      rw [limbConstraintsFrom_getD _ (by rw [valsLcsZip_length]; exact hk)]
      rw [valsLcsZip_getD hk]
    | succ i =>
      have hidx : (i + 1) * params.num_limbs + k =
          params.num_limbs + (i * params.num_limbs + k) := by ring
      simp only [batchConstraints, hidx, List.getD_cons_succ]
      rw [List.getD_append_right _ _ _ _
        (by rw [limbConstraintsFrom_length, valsLcsZip_length]; omega)]
      rw [limbConstraintsFrom_length, valsLcsZip_length, Nat.add_sub_cancel_left]
      rw [ih (by simpa using hi)]
      have harith : w0 + params.num_limbs + (i * params.num_limbs + k) =
          w0 + (params.num_limbs + (i * params.num_limbs + k)) := by ring
      rw [harith]

theorem batchConstraints_shape {q : ℕ} (params : NNParams)
    (table : List (List (ZMod q))) (w0 : ℕ) (seqs : List (List (BooleanVar q))) :
    ∀ c ∈ batchConstraints params table w0 seqs, c.a = [] ∧ c.b = [] := by
  induction seqs generalizing w0 with
  | nil => intro c hc; cases hc
  | cons bits rest ih =>
    intro c hc
    rcases List.mem_append.mp hc with hc | hc
    · rcases List.mem_map.mp hc with ⟨k, _, rfl⟩
      exact ⟨rfl, rfl⟩
    · exact ih _ c hc

theorem lookupTableAux_getD (p q : ℕ) (params : NNParams) :
    ∀ (n : ℕ) (c : ZMod p) {j : ℕ}, j < n →
      (lookupTableAux p q params n c).getD j [] =
        get_limbs_representations p q params (2 ^ j * c) := by
  intro n
  induction n with
  | zero => intro c j hj; omega
  | succ n ih =>
    intro c j hj
    cases j with
    | zero => simp [lookupTableAux]
    | succ j =>
      simp only [lookupTableAux, List.getD_cons_succ]
      rw [ih (c + c) (by omega)]
      refine congrArg _ ?_
      ring

theorem chunks_recompose (bpl : ℕ) :
    ∀ (L x : ℕ),
      (∑ k in Finset.range L,
        x / 2 ^ (bpl * (L - 1 - k)) % 2 ^ bpl * 2 ^ (bpl * (L - 1 - k)))
        = x % 2 ^ (bpl * L) := by
  intro L
  induction L with
  | zero => intro x; simp [Nat.mod_one]
  | succ L ih =>
    intro x
    rw [Finset.sum_range_succ']
    have hsum : (∑ k in Finset.range L,
        x / 2 ^ (bpl * (L + 1 - 1 - (k + 1))) % 2 ^ bpl *
          2 ^ (bpl * (L + 1 - 1 - (k + 1))))
        = x % 2 ^ (bpl * L) := by
      rw [← ih x]
      refine Finset.sum_congr rfl fun k _ => ?_
      have harith : L + 1 - 1 - (k + 1) = L - 1 - k := by omega
      rw [harith]
    rw [hsum]
    have hpow : (2 : ℕ) ^ (bpl * (L + 1)) = 2 ^ (bpl * L) * 2 ^ bpl := by
      rw [← pow_add]
      refine congrArg _ ?_
      ring
    have hdiv : x % (2 ^ (bpl * L) * 2 ^ bpl) / 2 ^ (bpl * L)
        = x / 2 ^ (bpl * L) % 2 ^ bpl := Nat.mod_mul_right_div_self x _ _
    have hmod : x % (2 ^ (bpl * L) * 2 ^ bpl) % 2 ^ (bpl * L) = x % 2 ^ (bpl * L) :=
      Nat.mod_mod_of_dvd x (dvd_mul_right _ _)
    have hsplit := Nat.div_add_mod (x % (2 ^ (bpl * L) * 2 ^ bpl)) (2 ^ (bpl * L))
    rw [hdiv, hmod] at hsplit
    have hz : L + 1 - 1 - 0 = L := by omega
    rw [hz, hpow, ← hsplit]
    ring

theorem limbs_to_value_foldl_acc (p q : ℕ) (bpl : ℕ) (lv : List (ZMod q)) :
    ∀ a : ZMod p,
      lv.foldl (fun acc l => acc * 2 ^ bpl + (l.val : ZMod p)) a
        = a * 2 ^ (bpl * lv.length) + limbs_to_value p q bpl lv := by
  induction lv with
  | nil => intro a; simp [limbs_to_value]
  | cons hd t ih =>
    intro a
    simp only [List.foldl_cons, limbs_to_value, List.length_cons]
    rw [ih, ih (0 * 2 ^ bpl + (hd.val : ZMod p))]
    have hpow : (2 : ZMod p) ^ (bpl * (t.length + 1))
        = 2 ^ (bpl * t.length) * 2 ^ bpl := by
      rw [← pow_add]
      refine congrArg _ ?_
      ring
    rw [hpow]
    ring

theorem limbs_to_value_eq_sum (p q : ℕ) (bpl : ℕ) (lv : List (ZMod q)) :
    limbs_to_value p q bpl lv =
      ∑ k in Finset.range lv.length,
        ((lv.getD k 0).val : ZMod p) * 2 ^ (bpl * (lv.length - 1 - k)) := by
  induction lv with
  | nil => simp [limbs_to_value]
  | cons hd t ih =>
    have hstep : limbs_to_value p q bpl (hd :: t)
        = (hd.val : ZMod p) * 2 ^ (bpl * t.length) + limbs_to_value p q bpl t := by
      show List.foldl _ (0 * 2 ^ bpl + (hd.val : ZMod p)) t = _
      rw [limbs_to_value_foldl_acc]
      ring
    rw [hstep, ih, List.length_cons, Finset.sum_range_succ']
    have hz : t.length + 1 - 1 - 0 = t.length := by omega
    rw [hz, List.getD_cons_zero]
    have htail : (∑ k in Finset.range t.length,
        (((hd :: t).getD (k + 1) 0).val : ZMod p) *
          2 ^ (bpl * (t.length + 1 - 1 - (k + 1))))
        = ∑ k in Finset.range t.length,
          ((t.getD k 0).val : ZMod p) * 2 ^ (bpl * (t.length - 1 - k)) := by
      refine Finset.sum_congr rfl fun k _ => ?_
      rw [List.getD_cons_succ]
      have harith : t.length + 1 - 1 - (k + 1) = t.length - 1 - k := by omega
      rw [harith]
    rw [htail]
    ring

theorem getD_map_value {q : ℕ} (bits : List (BooleanVar q)) (j : ℕ) :
    (bits.map BooleanVar.value).getD j false =
      (bits.getD j ⟨false, []⟩).value := by
  by_cases h : j < bits.length
  · rw [List.getD_eq_getElem _ _ (by simpa using h), List.getD_eq_getElem _ _ h,
      List.getElem_map]
  · rw [List.getD_eq_default _ _ (by simpa using h),
      List.getD_eq_default _ _ (by omega)]

/-- The witnessed value of one reconstructed sequence: recomposing the
accumulated limb values yields the little-endian bit value, reduced in
the target field, provided the emulation parameters cover the target
field and the circuit field does not overflow on the per-limb sums. -/
theorem reconstruct_value (p q : ℕ) (params : NNParams) (hp : 1 < p)
    (hcap : p ≤ 2 ^ (params.bits_per_limb * params.num_limbs))
    {M : ℕ} (bits : List (BooleanVar q)) (hlen : bits.length ≤ M)
    (hnw : M * (2 ^ params.bits_per_limb - 1) < q) :
    limbs_to_value p q params.bits_per_limb
        ((List.range params.num_limbs).map
          (limbVal (lookupTableAux p q params M 1) bits))
      = ((bitsLEValue (bits.map BooleanVar.value) : ℕ) : ZMod p) := by
  haveI : NeZero p := ⟨by omega⟩
  set L := params.num_limbs with hL
  set bpl := params.bits_per_limb with hbpl
  set len := bits.length with hlenDef
  -- the natural-number chunk of 2^j at limb position k
  set x : ℕ → ℕ := fun j => ((2 : ZMod p) ^ j).val with hx
  set chunk : ℕ → ℕ → ℕ :=
    fun j k => x j / 2 ^ (bpl * (L - 1 - k)) % 2 ^ bpl with hchunk
  set S : ℕ → ℕ :=
    fun k => ∑ j in Finset.range len,
      if (bits.getD j ⟨false, []⟩).value then chunk j k else 0 with hS
  have hSlt : ∀ k, S k < q := by
    intro k
    have hbound : S k ≤ len * (2 ^ bpl - 1) := by
      rw [hS]
      calc (∑ j in Finset.range len,
            if (bits.getD j ⟨false, []⟩).value then chunk j k else 0)
          ≤ ∑ _j in Finset.range len, (2 ^ bpl - 1) := by
            refine Finset.sum_le_sum fun j _ => ?_
            by_cases hb : (bits.getD j ⟨false, []⟩).value
            · simp only [hb, if_true, hchunk]
              have := Nat.mod_lt (x j / 2 ^ (bpl * (L - 1 - k)))
                (show 0 < 2 ^ bpl from Nat.pos_pow_of_pos _ (by omega))
              omega
            · simp only [hb, if_false]
              exact Nat.zero_le _
        _ = len * (2 ^ bpl - 1) := by
            rw [Finset.sum_const, Finset.card_range, smul_eq_mul]
    calc S k ≤ len * (2 ^ bpl - 1) := hbound
      _ ≤ M * (2 ^ bpl - 1) := Nat.mul_le_mul_right _ hlen
      _ < q := hnw
  have hvalS : ∀ k, k < L →
      limbVal (lookupTableAux p q params M 1) bits k = ((S k : ℕ) : ZMod q) := by
    intro k hk
    rw [limbVal, hS, Nat.cast_sum]
    refine Finset.sum_congr rfl fun j hj => ?_
    have hjlen : j < len := Finset.mem_range.mp hj
    rw [lookupTableAux_getD p q params M 1 (by omega)]
    rw [mul_one]
    have hentry : (get_limbs_representations p q params ((2 : ZMod p) ^ j)).getD k 0
        = ((chunk j k : ℕ) : ZMod q) := getD_range_map _ _ hk
    rw [hentry]
    by_cases hb : (bits.getD j ⟨false, []⟩).value
    · simp [hb]
    · simp [hb]
  have hvalval : ∀ k, k < L →
      (limbVal (lookupTableAux p q params M 1) bits k).val = S k := by
    intro k hk
    rw [hvalS k hk]
    exact ZMod.val_cast_of_lt (hSlt k)
  rw [limbs_to_value_eq_sum]
  rw [List.length_map, List.length_range]
  have hterm : (∑ k in Finset.range L,
      ((((List.range L).map (limbVal (lookupTableAux p q params M 1) bits)).getD
          k 0).val : ZMod p) * 2 ^ (bpl * (L - 1 - k)))
      = ∑ k in Finset.range L, ((S k : ℕ) : ZMod p) * 2 ^ (bpl * (L - 1 - k)) := by
    refine Finset.sum_congr rfl fun k hk => ?_
    have hkL : k < L := Finset.mem_range.mp hk
    rw [getD_range_map _ _ hkL, hvalval k hkL]
  rw [hterm]
  have hcast : (∑ k in Finset.range L, ((S k : ℕ) : ZMod p) * 2 ^ (bpl * (L - 1 - k)))
      = ((∑ k in Finset.range L, S k * 2 ^ (bpl * (L - 1 - k)) : ℕ) : ZMod p) := by
    push_cast
    rfl
  rw [hcast]
  have hnat : (∑ k in Finset.range L, S k * 2 ^ (bpl * (L - 1 - k)))
      = ∑ j in Finset.range len,
          if (bits.getD j ⟨false, []⟩).value then x j else 0 := by
    have hswap : (∑ k in Finset.range L, S k * 2 ^ (bpl * (L - 1 - k)))
        = ∑ j in Finset.range len, ∑ k in Finset.range L,
            (if (bits.getD j ⟨false, []⟩).value then chunk j k else 0) *
              2 ^ (bpl * (L - 1 - k)) := by
      rw [Finset.sum_comm]
      refine Finset.sum_congr rfl fun k _ => ?_
      rw [hS, Finset.sum_mul]
    rw [hswap]
    refine Finset.sum_congr rfl fun j _ => ?_
    by_cases hb : (bits.getD j ⟨false, []⟩).value
    · simp only [if_pos hb]
      simp only [hchunk]
      rw [chunks_recompose bpl L (x j)]
      have hxlt : x j < 2 ^ (bpl * L) := by
        have hvp := ZMod.val_lt ((2 : ZMod p) ^ j)
        have hxj : x j = ((2 : ZMod p) ^ j).val := rfl
        omega
      exact Nat.mod_eq_of_lt hxlt
    · simp only [if_neg hb]
      simp
  rw [hnat]
  have hback : ((∑ j in Finset.range len,
      if (bits.getD j ⟨false, []⟩).value then x j else 0 : ℕ) : ZMod p)
      = ∑ j in Finset.range len,
          if (bits.getD j ⟨false, []⟩).value then (2 : ZMod p) ^ j else 0 := by
    push_cast
    refine Finset.sum_congr rfl fun j _ => ?_
    by_cases hb : (bits.getD j ⟨false, []⟩).value
    · simp only [if_pos hb, hx]
      rw [ZMod.natCast_val, ZMod.cast_id]
    · simp only [if_neg hb]
  rw [hback]
  rw [bitsLEValue]
  rw [List.length_map]
  push_cast
  refine (Finset.sum_congr rfl fun j _ => ?_).symm
  rw [getD_map_value]

theorem assignment_lookup {q : ℕ} (params : NNParams)
    (table : List (List (ZMod q))) {cs : CSState q}
    (hwf : cs.assignment.length = cs.numWitness)
    {seqs : List (List (BooleanVar q))} {i k : ℕ}
    (hi : i < seqs.length) (hk : k < params.num_limbs) :
    (cs.assignment ++ batchAssign params table seqs).getD
        (cs.numWitness + (i * params.num_limbs + k)) 0 =
      limbVal table (seqs.getD i []) k := by
  rw [List.getD_append_right _ _ _ _ (by omega)]
  rw [hwf, Nat.add_sub_cancel_left]
  exact batchAssign_getD params table hi hk

/-- C1: For every collection of little-endian boolean sequences given
to `bits_le_to_nonnative` (on an available constraint system, with
emulation parameters that cover the target field and a circuit field
large enough that the per-limb bit sums cannot wrap), each produced
non-native gadget is marked in normal form with zero accumulated
additions, and its value under the witness assignment implied by the
input bits equals `Σ bit[j] * 2^j` reduced modulo the order of the
target field `F`. -/
theorem c1_reconstruction_values (p q : ℕ) (params : NNParams)
    (cs : CSState q) (seqs : List (List (BooleanVar q)))
    (hp : 1 < p) (hfin : cs.unavailable = false)
    (hwf : cs.assignment.length = cs.numWitness)
    (hcap : p ≤ 2 ^ (params.bits_per_limb * params.num_limbs))
    (hnw : maxBitsOf seqs * (2 ^ params.bits_per_limb - 1) < q) :
    ∃ out cs2, bits_le_to_nonnative p q params cs seqs = .ok (out, cs2)
      ∧ out.length = seqs.length
      ∧ ∀ i, i < seqs.length →
          (out.getD i ⟨[], 0, true⟩).is_in_the_normal_form = true
          ∧ (out.getD i ⟨[], 0, true⟩).num_of_additions_over_normal_form = 0
          ∧ gadgetValue p q params cs2 (out.getD i ⟨[], 0, true⟩)
              = ((bitsLEValue ((seqs.getD i []).map BooleanVar.value) : ℕ) : ZMod p) := by
  refine ⟨_, _, bits_le_to_nonnative_ok p params hfin seqs,
    batchGadgets_length params cs.numWitness seqs, ?_⟩
  intro i hi
  rw [batchGadgets_getD params hi]
  refine ⟨rfl, rfl, ?_⟩
  show limbs_to_value p q params.bits_per_limb _ = _
  have hmap : (mkVars (cs.numWitness + i * params.num_limbs) params.num_limbs).map
      (witnessOf { cs with
        numWitness := cs.numWitness + seqs.length * params.num_limbs,
        assignment := cs.assignment ++
          batchAssign params (lookupTableAux p q params (maxBitsOf seqs) 1) seqs,
        constraints := cs.constraints ++
          batchConstraints params (lookupTableAux p q params (maxBitsOf seqs) 1)
            cs.numWitness seqs })
      = (List.range params.num_limbs).map
          (limbVal (lookupTableAux p q params (maxBitsOf seqs) 1) (seqs.getD i [])) := by
    rw [mkVars, List.map_map]
    refine List.map_congr_left fun k hk => ?_
    have hkL : k < params.num_limbs := List.mem_range.mp hk
    show witnessOf _ (Var.witness (cs.numWitness + i * params.num_limbs + k)) = _
    show (cs.assignment ++ _).getD (cs.numWitness + i * params.num_limbs + k) 0 = _
    rw [show cs.numWitness + i * params.num_limbs + k
        = cs.numWitness + (i * params.num_limbs + k) from by ring]
    exact assignment_lookup params _ hwf hi hkL
  rw [hmap]
  exact reconstruct_value p q params hp hcap (seqs.getD i [])
    (length_le_maxBitsOf (getD_mem [] hi)) hnw

/-- Witness for C1 at a concrete instance: target field of order 5,
circuit field of order 97, three one-bit limbs, reconstructing the bit
pattern `101` (value 5, which is 0 mod 5). -/
theorem c1_witness :
    ∃ out cs2,
      bits_le_to_nonnative 5 97 ⟨3, 1⟩ ⟨false, 0, [], []⟩
          [[⟨true, [((1 : ZMod 97), Var.one)]⟩, ⟨false, []⟩,
            ⟨true, [((1 : ZMod 97), Var.one)]⟩]] = .ok (out, cs2)
      ∧ out.length = 1
      ∧ ∀ i, i < 1 →
          (out.getD i ⟨[], 0, true⟩).is_in_the_normal_form = true
          ∧ (out.getD i ⟨[], 0, true⟩).num_of_additions_over_normal_form = 0
          ∧ gadgetValue 5 97 ⟨3, 1⟩ cs2 (out.getD i ⟨[], 0, true⟩)
              = ((bitsLEValue (([[⟨true, [((1 : ZMod 97), Var.one)]⟩, ⟨false, []⟩,
                  ⟨true, [((1 : ZMod 97), Var.one)]⟩]].getD i []).map
                    BooleanVar.value) : ℕ) : ZMod 5) := by
  have h := c1_reconstruction_values 5 97 ⟨3, 1⟩ ⟨false, 0, [], []⟩
    [[⟨true, [((1 : ZMod 97), Var.one)]⟩, ⟨false, []⟩,
      ⟨true, [((1 : ZMod 97), Var.one)]⟩]]
    (by decide) (by decide) (by decide) (by decide) (by decide)
  obtain ⟨out, cs2, heq, hlen, hval⟩ := h
  exact ⟨out, cs2, heq, hlen, hval⟩

/-- C2: On an available constraint system, `bits_le_to_nonnative`
emits exactly one constraint per limb of each reconstructed gadget, each
with both multiplier linear combinations zero (a purely linear
constraint) enforcing `lc[k] - limb = 0`; consequently any witness
assignment under which the enforced linear combination of some limb does
not match the value assigned to the variable of that limb fails to satisfy the
resulting system. -/
theorem c2_limb_constraints (p q : ℕ) (params : NNParams) (cs : CSState q)
    (seqs : List (List (BooleanVar q))) (hfin : cs.unavailable = false) :
    ∃ out cs2, bits_le_to_nonnative p q params cs seqs = .ok (out, cs2)
      ∧ cs2.constraints.length
          = cs.constraints.length + seqs.length * params.num_limbs
      ∧ (∀ c ∈ cs2.constraints.drop cs.constraints.length, c.a = [] ∧ c.b = [])
      ∧ ∀ (α : ℕ → ZMod q) (i k : ℕ), i < seqs.length → k < params.num_limbs →
          LinComb.eval α
              (limbLC (lookupTableAux p q params (maxBitsOf seqs) 1)
                (seqs.getD i []) k)
            ≠ α (cs.numWitness + (i * params.num_limbs + k)) →
          ¬ cs2.satisfiedBy α := by
  refine ⟨_, _, bits_le_to_nonnative_ok p params hfin seqs, ?_, ?_, ?_⟩
  · simp [List.length_append,
      batchConstraints_length params _ cs.numWitness seqs]
  · intro c hc
    rw [List.drop_left] at hc
    exact batchConstraints_shape params _ cs.numWitness seqs c hc
  · intro α i k hi hk hne hsat
    set table := lookupTableAux p q params (maxBitsOf seqs) 1 with htab
    have hidx : i * params.num_limbs + k
        < (batchConstraints params table cs.numWitness seqs).length := by
      rw [batchConstraints_length]
      have h1 : i * params.num_limbs + params.num_limbs ≤
          seqs.length * params.num_limbs := by
        have := Nat.mul_le_mul_right params.num_limbs (show i + 1 ≤ seqs.length from hi)
        calc i * params.num_limbs + params.num_limbs
            = (i + 1) * params.num_limbs := by ring
          _ ≤ seqs.length * params.num_limbs := this
      omega
    have hmem : (batchConstraints params table cs.numWitness seqs).getD
        (i * params.num_limbs + k) ⟨[], [], []⟩
          ∈ batchConstraints params table cs.numWitness seqs :=
      getD_mem _ hidx
    have hgetD := @batchConstraints_getD q params table cs.numWitness i k
      seqs hi hk
    rw [hgetD] at hmem
    have hc := hsat _ (List.mem_append_right _ hmem)
    unfold Constraint.holdsUnder at hc
    rw [LinComb.eval_append] at hc
    simp only [LinComb.eval, List.map_nil, List.sum_nil, List.map_cons,
      evalVar, List.sum_cons, List.sum_nil, zero_mul] at hc
    apply hne
    have : (0 : ZMod q) = LinComb.eval α (limbLC table (seqs.getD i []) k) +
        (-1 * α (cs.numWitness + (i * params.num_limbs + k)) + 0) := by
      simpa [LinComb.eval] using hc
    have hres : LinComb.eval α (limbLC table (seqs.getD i []) k)
        = α (cs.numWitness + (i * params.num_limbs + k)) := by
      linear_combination -this
    exact hres

/-- Witness for C2 at a concrete instance: one sequence of one true
constant bit, two limbs; the assignment mapping every variable to 1
breaks the limb equations, hence fails the system. -/
theorem c2_witness :
    ∃ out cs2, bits_le_to_nonnative 5 7 ⟨2, 2⟩ ⟨false, 0, [], []⟩
        [[⟨true, [((1 : ZMod 7), Var.one)]⟩]] = .ok (out, cs2)
      ∧ cs2.constraints.length = 0 + 1 * 2
      ∧ (∀ c ∈ cs2.constraints.drop 0, c.a = [] ∧ c.b = [])
      ∧ ∀ (α : ℕ → ZMod 7) (i k : ℕ), i < 1 → k < 2 →
          LinComb.eval α
              (limbLC (lookupTableAux 5 7 ⟨2, 2⟩
                  (maxBitsOf [[⟨true, [((1 : ZMod 7), Var.one)]⟩]]) 1)
                ([[⟨true, [((1 : ZMod 7), Var.one)]⟩]].getD i []) k)
            ≠ α (0 + (i * 2 + k)) →
          ¬ cs2.satisfiedBy α :=
  c2_limb_constraints 5 7 ⟨2, 2⟩ ⟨false, 0, [], []⟩
    [[⟨true, [((1 : ZMod 7), Var.one)]⟩]] (by decide)

theorem allocLimbs_no_err {q : ℕ} (pairs : List (ZMod q × LinComb q)) :
    ∀ (cs : CSState q) (e : SynthesisError), allocLimbs cs pairs ≠ .err e := by
  induction pairs with
  | nil => intro cs e h; cases h
  | cons p rest ih =>
    intro cs e h
    obtain ⟨v, l⟩ := p
    unfold allocLimbs at h
    unfold CSState.newWitness CSState.enforceConstraint at h
    by_cases hu : cs.unavailable
    · simp [hu] at h
    · simp only [hu, if_false, Bool.false_eq_true] at h
      revert h
      split
      next => intro h; cases h
      next e2 heq => intro h; exact ih _ e2 heq
      next heq => intro h; cases h

theorem bitsLeLoop_total {q : ℕ} (params : NNParams)
    (table : List (List (ZMod q))) (seqs : List (List (BooleanVar q))) :
    ∀ cs : CSState q,
      (∃ out cs2, bitsLeLoop params table cs seqs = .ok (out, cs2)
        ∧ out.length = seqs.length)
      ∨ bitsLeLoop params table cs seqs = .panicked := by
  induction seqs with
  | nil =>
    intro cs
    exact Or.inl ⟨[], cs, rfl, rfl⟩
  | cons bits rest ih =>
    intro cs
    rcases halloc : allocLimbs cs
        ((limbVals params table bits).zip (limbLCs params table bits)) with
        ⟨limbs, cs1⟩ | e | _
    · rcases ih cs1 with ⟨out, cs2, hloop, hlen⟩ | hloop
      · refine Or.inl ⟨⟨limbs, 0, true⟩ :: out, cs2, ?_, by simp [hlen]⟩
        unfold bitsLeLoop
        rw [halloc]
        dsimp only
        rw [hloop]
      · refine Or.inr ?_
        unfold bitsLeLoop
        rw [halloc]
        dsimp only
        rw [hloop]
    · exact absurd halloc (allocLimbs_no_err _ cs e)
    · refine Or.inr ?_
      unfold bitsLeLoop
      rw [halloc]

/-- C5 amended: `bits_le_to_nonnative` never returns a
synthesis error: failures of the unwrapped constraint-system calls abort
(panic) instead of being propagated, and on success there is exactly one
gadget per input sequence — no partial output is ever returned. -/
theorem c5_amended (p q : ℕ) (params : NNParams) (cs : CSState q)
    (seqs : List (List (BooleanVar q))) :
    (∃ out cs2, bits_le_to_nonnative p q params cs seqs = .ok (out, cs2)
      ∧ out.length = seqs.length)
    ∨ bits_le_to_nonnative p q params cs seqs = .panicked :=
  bitsLeLoop_total params _ seqs cs

/-- C5 counterexample: On an unavailable constraint system — the
documented synthesis-failure situation — the reconstruction of one
one-bit sequence panics (the source `.unwrap()`s the failed allocation)
and does not return the failure as the `Result` error of the function. -/
theorem c5_counterexample :
    bits_le_to_nonnative 5 7 ⟨1, 1⟩ ⟨true, 0, [], []⟩
        [[⟨true, [((1 : ZMod 7), Var.one)]⟩]] = .panicked
    ∧ ∀ e : SynthesisError,
        bits_le_to_nonnative 5 7 ⟨1, 1⟩ ⟨true, 0, [], []⟩
          [[⟨true, [((1 : ZMod 7), Var.one)]⟩]] ≠ .err e := by
  have h : bits_le_to_nonnative 5 7 ⟨1, 1⟩ ⟨true, 0, [], []⟩
      [[⟨true, [((1 : ZMod 7), Var.one)]⟩]] = .panicked := by decide
  exact ⟨h, fun e he => by rw [h] at he; cases he⟩

theorem bitsLeLoop_cons {q : ℕ} (params : NNParams)
    (table : List (List (ZMod q))) (cs : CSState q)
    (bits : List (BooleanVar q)) (rest : List (List (BooleanVar q))) :
    bitsLeLoop params table cs (bits :: rest) =
      match allocLimbs cs
          ((limbVals params table bits).zip (limbLCs params table bits)) with
      | .err e => .err e
      | .panicked => .panicked
      | .ok (limbs, cs1) =>
        match bitsLeLoop params table cs1 rest with
        | .ok (out, cs2) => .ok (⟨limbs, 0, true⟩ :: out, cs2)
        | .err e => .err e
        | .panicked => .panicked := rfl

theorem foldSeparate_cons (p q : ℕ) (params : NNParams) (cs : CSState q)
    (bits : List (BooleanVar q)) (rest : List (List (BooleanVar q))) :
    foldSeparate p q params cs (bits :: rest) =
      match bits_le_to_nonnative p q params cs [bits] with
      | .err e => .err e
      | .panicked => .panicked
      | .ok (gs, cs1) =>
        match foldSeparate p q params cs1 rest with
        | .ok (gs2, cs2) => .ok (gs ++ gs2, cs2)
        | .err e => .err e
        | .panicked => .panicked := rfl

theorem limbVal_congr {q : ℕ} {T1 T2 : List (List (ZMod q))}
    {bits : List (BooleanVar q)}
    (h : ∀ j, j < bits.length → T1.getD j [] = T2.getD j []) (k : ℕ) :
    limbVal T1 bits k = limbVal T2 bits k := by
  unfold limbVal
  refine Finset.sum_congr rfl fun j hj => ?_
  rw [h j (Finset.mem_range.mp hj)]

theorem limbLC_congr {q : ℕ} {T1 T2 : List (List (ZMod q))}
    {bits : List (BooleanVar q)}
    (h : ∀ j, j < bits.length → T1.getD j [] = T2.getD j []) (k : ℕ) :
    limbLC T1 bits k = limbLC T2 bits k := by
  unfold limbLC
  refine congrArg _ (List.map_congr_left fun j hj => ?_)
  rw [h j (List.mem_range.mp hj)]

theorem limbVals_congr {q : ℕ} (params : NNParams)
    {T1 T2 : List (List (ZMod q))} {bits : List (BooleanVar q)}
    (h : ∀ j, j < bits.length → T1.getD j [] = T2.getD j []) :
    limbVals params T1 bits = limbVals params T2 bits :=
  List.map_congr_left fun k _ => limbVal_congr h k

theorem limbLCs_congr {q : ℕ} (params : NNParams)
    {T1 T2 : List (List (ZMod q))} {bits : List (BooleanVar q)}
    (h : ∀ j, j < bits.length → T1.getD j [] = T2.getD j []) :
    limbLCs params T1 bits = limbLCs params T2 bits :=
  List.map_congr_left fun k _ => limbLC_congr h k

theorem bitsLeLoop_congr {q : ℕ} (params : NNParams)
    {T1 T2 : List (List (ZMod q))} (seqs : List (List (BooleanVar q)))
    (h : ∀ bits ∈ seqs, ∀ j, j < bits.length → T1.getD j [] = T2.getD j []) :
    ∀ cs : CSState q, bitsLeLoop params T1 cs seqs = bitsLeLoop params T2 cs seqs := by
  induction seqs with
  | nil => intro cs; rfl
  | cons bits rest ih =>
    intro cs
    unfold bitsLeLoop
    rw [limbVals_congr params (h bits (List.mem_cons_self _ _)),
      limbLCs_congr params (h bits (List.mem_cons_self _ _))]
    simp only [ih fun b hb => h b (List.mem_cons_of_mem _ hb)]

theorem maxBitsOf_singleton {q : ℕ} (bits : List (BooleanVar q)) :
    maxBitsOf [bits] = bits.length := by
  simp [maxBitsOf]

/-- C6: Reconstructing `N` bit sequences in one call to
`bits_le_to_nonnative` is identical — gadgets, allocations, and
constraints alike — to reconstructing each sequence alone in `N`
separate calls threaded through the same constraint system: the shared
lookup table (entry `j` being the limb form of `2^j`, a pure function of
`j` and the two fields) causes no cross-contamination between the
sequences of a batch. -/
theorem c6_batch_independence (p q : ℕ) (params : NNParams) (cs : CSState q)
    (seqs : List (List (BooleanVar q))) :
    bits_le_to_nonnative p q params cs seqs = foldSeparate p q params cs seqs := by
  induction seqs generalizing cs with
  | nil => rfl
  | cons bits rest ih =>
    have hbig : ∀ j, j < bits.length →
        (lookupTableAux p q params (maxBitsOf (bits :: rest)) 1).getD j [] =
          (lookupTableAux p q params (maxBitsOf [bits]) 1).getD j [] := by
      intro j hj
      rw [lookupTableAux_getD p q params _ 1
          (lt_of_lt_of_le hj (length_le_maxBitsOf (List.mem_cons_self _ _))),
        lookupTableAux_getD p q params _ 1
          (by rw [maxBitsOf_singleton]; exact hj)]
    have hrest : ∀ b ∈ rest, ∀ j, j < b.length →
        (lookupTableAux p q params (maxBitsOf (bits :: rest)) 1).getD j [] =
          (lookupTableAux p q params (maxBitsOf rest) 1).getD j [] := by
      intro b hb j hj
      rw [lookupTableAux_getD p q params _ 1
          (lt_of_lt_of_le hj (length_le_maxBitsOf (List.mem_cons_of_mem _ hb))),
        lookupTableAux_getD p q params _ 1
          (lt_of_lt_of_le hj (length_le_maxBitsOf hb))]
    show bitsLeLoop params _ cs (bits :: rest) = _
    rw [bitsLeLoop_cons]
    rw [limbVals_congr params hbig, limbLCs_congr params hbig]
    rw [foldSeparate_cons]
    show _ = (match bitsLeLoop params
        (lookupTableAux p q params (maxBitsOf [bits]) 1) cs [bits] with
      | .err e => .err e
      | .panicked => .panicked
      | .ok (gs, cs1) =>
        match foldSeparate p q params cs1 rest with
        | .ok (gs2, cs2) => .ok (gs ++ gs2, cs2)
        | .err e => .err e
        | .panicked => .panicked)
    rw [bitsLeLoop_cons]
    rcases halloc : allocLimbs cs
        ((limbVals params (lookupTableAux p q params (maxBitsOf [bits]) 1) bits).zip
          (limbLCs params (lookupTableAux p q params (maxBitsOf [bits]) 1) bits)) with
        ⟨limbs, cs1⟩ | e | _
    · have hinner : bitsLeLoop params
          (lookupTableAux p q params (maxBitsOf (bits :: rest)) 1) cs1 rest =
            foldSeparate p q params cs1 rest := by
        rw [bitsLeLoop_congr params rest hrest cs1]
        exact ih cs1
      dsimp only [bitsLeLoop]
      rw [hinner]
      rcases hfold : foldSeparate p q params cs1 rest with ⟨out, cs2⟩ | e | _ <;> rfl
    · rfl
    · rfl

theorem totalBitsOf_foldl_acc (pbits : ℕ) (sizes : List FieldElementSize) :
    ∀ a : ℕ, sizes.foldl (fun t s => t + s.numBits pbits) a
      = a + totalBitsOf pbits sizes := by
  induction sizes with
  | nil => intro a; simp [totalBitsOf]
  | cons sz rest ih =>
    intro a
    simp only [List.foldl_cons]
    rw [ih, show totalBitsOf pbits (sz :: rest)
      = List.foldl (fun t s => t + s.numBits pbits)
          (0 + sz.numBits pbits) rest from rfl, ih]
    omega

theorem totalBitsOf_cons (pbits : ℕ) (sz : FieldElementSize)
    (rest : List FieldElementSize) :
    totalBitsOf pbits (sz :: rest) = sz.numBits pbits + totalBitsOf pbits rest := by
  rw [show totalBitsOf pbits (sz :: rest)
    = List.foldl (fun t s => t + s.numBits pbits) (0 + sz.numBits pbits) rest from rfl,
    totalBitsOf_foldl_acc]
  omega

theorem chunkBits_eq_slices {q : ℕ} (pbits : ℕ) :
    ∀ (sizes : List FieldElementSize) (bits : List (BooleanVar q)),
      chunkBits pbits sizes bits =
        (List.range sizes.length).map fun i =>
          (bits.drop (totalBitsOf pbits (sizes.take i))).take
            ((sizes.getD i FieldElementSize.Full).numBits pbits) := by
  intro sizes
  induction sizes with
  | nil => intro bits; rfl
  | cons sz rest ih =>
    intro bits
    simp only [chunkBits, List.length_cons, List.range_succ_eq_map, List.map_cons,
      List.map_map]
    refine congrArg₂ List.cons (by simp [totalBitsOf]) ?_
    rw [ih (bits.drop (sz.numBits pbits))]
    refine List.map_congr_left fun i _ => ?_
    simp only [Function.comp, List.take_succ_cons, List.getD_cons_succ,
      totalBitsOf_cons, List.drop_drop]

theorem chunkBits_length {q : ℕ} (pbits : ℕ) (sizes : List FieldElementSize) :
    ∀ bits : List (BooleanVar q), (chunkBits pbits sizes bits).length = sizes.length := by
  induction sizes with
  | nil => intro bits; rfl
  | cons sz rest ih => intro bits; simp [chunkBits, ih]

theorem chunkBits_flatten {q : ℕ} (pbits : ℕ) (sizes : List FieldElementSize) :
    ∀ bits : List (BooleanVar q), bits.length = totalBitsOf pbits sizes →
      (chunkBits pbits sizes bits).flatten = bits := by
  induction sizes with
  | nil =>
    intro bits hlen
    simp only [totalBitsOf, List.foldl_nil] at hlen
    rw [List.length_eq_zero] at hlen
    subst hlen
    rfl
  | cons sz rest ih =>
    intro bits hlen
    rw [totalBitsOf_cons] at hlen
    simp only [chunkBits, List.flatten_cons]
    rw [ih (bits.drop (sz.numBits pbits)) (by simp; omega)]
    exact List.take_append_drop _ bits

theorem chunkBits_map_length {q : ℕ} (pbits : ℕ) (sizes : List FieldElementSize) :
    ∀ bits : List (BooleanVar q), bits.length = totalBitsOf pbits sizes →
      (chunkBits pbits sizes bits).map List.length
        = sizes.map (FieldElementSize.numBits pbits) := by
  induction sizes with
  | nil => intro bits _; rfl
  | cons sz rest ih =>
    intro bits hlen
    rw [totalBitsOf_cons] at hlen
    simp only [chunkBits, List.map_cons]
    rw [ih (bits.drop (sz.numBits pbits)) (by simp; omega)]
    refine congrArg₂ _ ?_ rfl
    rw [List.length_take]
    omega

/-- C9: Empty inputs: reconstructing an empty collection returns an
empty gadget list with the constraint system unchanged (zero constraints
emitted), and the sized non-native squeeze on an empty size list returns
empty results with the sponge untouched — its `squeeze_bits` is never
invoked (the instrumented call counter stays at zero). -/
theorem c9_empty_inputs (p q : ℕ) :
    (∀ (params : NNParams) (cs : CSState q),
      bits_le_to_nonnative p q params cs [] = .ok ([], cs))
    ∧ ∀ (σ : Type) (P : SpongeVarOps q σ) (params : NNParams) (pbits : ℕ)
        (self : σ),
        squeezeNonnativeWithSizes p q (countingOps P) params pbits (self, 0) []
          = .ok (([], []), (self, 0)) :=
  ⟨fun _ _ => rfl, fun _ _ _ _ _ => rfl⟩

/-- C8: `squeeze_nonnative_field_elements(n)` returns exactly the
result of `squeeze_nonnative_field_elements_with_sizes` on `n` copies of
the full-size descriptor — the same gadgets, the same bit chunks, and
the same sponge state. -/
theorem c8_full_equiv_sized (p q : ℕ) {σ : Type} (P : SpongeVarOps q σ)
    (params : NNParams) (pbits : ℕ) (self : σ) (num_elements : ℕ) :
    squeezeNonnativeFull p q P params pbits self num_elements =
      squeezeNonnativeWithSizes p q P params pbits self
        (List.replicate num_elements FieldElementSize.Full) := rfl

/-- C4: For a non-empty size list, the sized non-native squeeze (i)
equals the program written from the words of the spec — squeeze the summed
bit count once and slice the stream at the size boundaries, feeding the
slices to `bits_le_to_nonnative`; (ii) performs exactly one
`squeeze_bits` call on the wrapped sponge; and (iii) partitions the
squeezed stream into `k` contiguous chunks, in descriptor order, whose
lengths are the bit counts of the descriptors. -/
theorem c4_sized_squeeze (p q : ℕ) {σ : Type} (P : SpongeVarOps q σ)
    (params : NNParams) (pbits : ℕ) (self : σ) (sizes : List FieldElementSize)
    (hne : sizes ≠ []) :
    squeezeNonnativeWithSizes p q P params pbits self sizes =
      manualSqueezeAndSlice p q P params pbits self sizes
    ∧ (∀ (c0 : ℕ) (res : List (NonNativeVarGadget q) × List (List (BooleanVar q)))
        (s2 : σ) (c2 : ℕ),
        squeezeNonnativeWithSizes p q (countingOps P) params pbits (self, c0) sizes
          = .ok (res, (s2, c2)) → c2 = c0 + 1)
    ∧ ∀ bits : List (BooleanVar q), bits.length = totalBitsOf pbits sizes →
        (chunkBits pbits sizes bits).flatten = bits
        ∧ (chunkBits pbits sizes bits).map List.length
            = sizes.map (FieldElementSize.numBits pbits)
        ∧ (chunkBits pbits sizes bits).length = sizes.length := by
  have hlenne : ¬ sizes.length = 0 := by
    simpa [List.length_eq_zero] using hne
  refine ⟨?_, ?_, ?_⟩
  · unfold squeezeNonnativeWithSizes manualSqueezeAndSlice
    rw [if_neg hlenne]
    simp only [chunkBits_eq_slices]
  · intro c0 res s2 c2 h
    unfold squeezeNonnativeWithSizes at h
    rw [if_neg hlenne] at h
    dsimp only [countingOps] at h
    rcases hsq : P.squeezeBitsO self (totalBitsOf pbits sizes) with e | ⟨bits, s1⟩
    · rw [hsq] at h
      cases h
    · rw [hsq] at h
      dsimp only at h
      rcases hrec : bits_le_to_nonnative p q params (P.csO s1)
          (chunkBits pbits sizes bits) with ⟨gs, cs1⟩ | e | _
      · rw [hrec] at h
        dsimp only at h
        injection h with h1
        injection h1 with h2 h3
        injection h3 with h4 h5
        omega
      · rw [hrec] at h; cases h
      · rw [hrec] at h; cases h
  · intro bits hlen
    exact ⟨chunkBits_flatten pbits sizes bits hlen,
      chunkBits_map_length pbits sizes bits hlen,
      chunkBits_length pbits sizes bits⟩

/-- Witness for C4 at a concrete instance: a truncated 1-bit descriptor
followed by a full-size descriptor over a 2-bit target field, against a
sponge that squeezes all-false constant bits. -/
theorem c4_witness :
    (squeezeNonnativeWithSizes 5 7 (trivialOps 7) ⟨1, 1⟩ 2 0
        [FieldElementSize.Truncated 1, FieldElementSize.Full] =
      manualSqueezeAndSlice 5 7 (trivialOps 7) ⟨1, 1⟩ 2 0
        [FieldElementSize.Truncated 1, FieldElementSize.Full])
    ∧ (∀ (c0 : ℕ)
        (res : List (NonNativeVarGadget 7) × List (List (BooleanVar 7)))
        (s2 : ℕ) (c2 : ℕ),
        squeezeNonnativeWithSizes 5 7 (countingOps (trivialOps 7)) ⟨1, 1⟩ 2
            (0, c0) [FieldElementSize.Truncated 1, FieldElementSize.Full]
          = .ok (res, (s2, c2)) → c2 = c0 + 1)
    ∧ ∀ bits : List (BooleanVar 7),
        bits.length
            = totalBitsOf 2 [FieldElementSize.Truncated 1, FieldElementSize.Full] →
        (chunkBits 2 [FieldElementSize.Truncated 1, FieldElementSize.Full]
            bits).flatten = bits
        ∧ (chunkBits 2 [FieldElementSize.Truncated 1, FieldElementSize.Full]
              bits).map List.length
            = [FieldElementSize.Truncated 1, FieldElementSize.Full].map
                (FieldElementSize.numBits 2)
        ∧ (chunkBits 2 [FieldElementSize.Truncated 1, FieldElementSize.Full]
              bits).length
            = [FieldElementSize.Truncated 1, FieldElementSize.Full].length :=
  c4_sized_squeeze 5 7 (trivialOps 7) ⟨1, 1⟩ 2 0
    [FieldElementSize.Truncated 1, FieldElementSize.Full] (by decide)

/-! ## The domain-separation wrapper: forwarded-call characterization -/

theorem loggedGadget_newG {q : ℕ} {σ : Type} (G : SpongeGadget q σ)
    (cs : CSState q) : (loggedGadget G).newG cs = (G.newG cs, []) := rfl

theorem loggedGadget_csG {q : ℕ} {σ : Type} (G : SpongeGadget q σ)
    (s : σ × List (CallRec q)) : (loggedGadget G).csG s = G.csG s.1 := rfl

theorem loggedGadget_absorbG {q : ℕ} {σ : Type} (G : SpongeGadget q σ)
    (s : σ × List (CallRec q)) (input : List (FpVarE q)) :
    (loggedGadget G).absorbG s input
      = (G.absorbG s.1 input, s.2 ++ [.absorbC input]) := rfl

theorem loggedGadget_squeezeBytesG {q : ℕ} {σ : Type} (G : SpongeGadget q σ)
    (s : σ × List (CallRec q)) (n : ℕ) :
    (loggedGadget G).squeezeBytesG s n
      = (G.squeezeBytesG s.1 n, s.2 ++ [.squeezeBytesC n]) := rfl

theorem loggedGadget_squeezeBitsG {q : ℕ} {σ : Type} (G : SpongeGadget q σ)
    (s : σ × List (CallRec q)) (n : ℕ) :
    (loggedGadget G).squeezeBitsG s n
      = (G.squeezeBitsG s.1 n, s.2 ++ [.squeezeBitsC n]) := rfl

theorem loggedGadget_squeezeFieldElementsG {q : ℕ} {σ : Type}
    (G : SpongeGadget q σ) (s : σ × List (CallRec q)) (n : ℕ) :
    (loggedGadget G).squeezeFieldElementsG s n
      = (G.squeezeFieldElementsG s.1 n, s.2 ++ [.squeezeFieldElementsC n]) := rfl

theorem loggedGadget_squeezeNonnativeSizedG {q : ℕ} {σ : Type}
    (G : SpongeGadget q σ) (s : σ × List (CallRec q))
    (sizes : List FieldElementSize) :
    (loggedGadget G).squeezeNonnativeSizedG s sizes
      = (G.squeezeNonnativeSizedG s.1 sizes, s.2 ++ [.squeezeNonnativeSizedC sizes]) := rfl

theorem loggedGadget_bitsOutG {q : ℕ} {σ : Type} (G : SpongeGadget q σ)
    (s : σ × List (CallRec q)) (n : ℕ) :
    (loggedGadget G).bitsOutG s n = G.bitsOutG s.1 n := rfl

theorem runOps_logged {q : ℕ} {σ : Type} (G : SpongeGadget q σ)
    (tag : List (ZMod q)) (ops : List (WrapperOp q)) :
    ∀ (s0 : σ) (log0 : List (CallRec q)) (flag : Bool),
      runOps (loggedGadget G) tag ⟨(s0, log0), flag⟩ ops =
        ⟨(replayCalls G s0 (expectedCalls tag flag ops),
          log0 ++ expectedCalls tag flag ops), flag || hasFwd ops⟩ := by
  induction ops with
  | nil =>
    intro s0 log0 flag
    simp [runOps, expectedCalls, hasFwd, forwardedOf, replayCalls]
  | cons op rest ih =>
    intro s0 log0 flag
    cases op <;> cases flag <;>
      simp [runOps, stepOp, DSSpongeVar.absorbDS, DSSpongeVar.squeezeBytesDS,
        DSSpongeVar.squeezeBitsDS, DSSpongeVar.squeezeFieldElementsDS,
        DSSpongeVar.squeezeNonnativeSizedDS, try_separate_domain,
        loggedGadget_absorbG, loggedGadget_squeezeBytesG, loggedGadget_squeezeBitsG,
        loggedGadget_squeezeFieldElementsG, loggedGadget_squeezeNonnativeSizedG,
        ih, expectedCalls, hasFwd, forwardedOf, forwardOf, replayCalls,
        List.filterMap_cons, List.any_cons, List.append_assoc]

/-- C3: For every wrapper instance (over an arbitrary wrapped sponge,
instrumented to record every forwarded call) and every sequence of public
operations run from a fresh instance: the calls the wrapped sponge
receives are exactly — nothing when no operation forwards, and otherwise
the domain-tag absorption followed by the forwarded user calls in order;
the `domain_separated` flag is set exactly when some operation forwarded.
Hence the tag is absorbed at most once per instance, strictly before any
other absorb or squeeze the wrapper forwards. -/
theorem c3_domain_separation {q : ℕ} {σ : Type} (G : SpongeGadget q σ)
    (cs : CSState q) (tag : List (ZMod q)) (ops : List (WrapperOp q)) :
    runOps (loggedGadget G) tag (DSSpongeVar.newDS (loggedGadget G) cs) ops =
      ⟨(replayCalls G (G.newG cs) (expectedCalls tag false ops),
        expectedCalls tag false ops), hasFwd ops⟩
    ∧ expectedCalls tag false ops =
        (if hasFwd ops then
          CallRec.absorbC (tag.map FpVarE.const) :: forwardedOf ops
        else []) := by
  constructor
  · have h := runOps_logged G tag ops (G.newG cs) [] false
    simpa using h
  · simp [expectedCalls]

theorem runOps_append {q : ℕ} {σ : Type} (G : SpongeGadget q σ)
    (tag : List (ZMod q)) (l1 l2 : List (WrapperOp q)) :
    ∀ s : DSSpongeVar σ,
      runOps G tag s (l1 ++ l2) = runOps G tag (runOps G tag s l1) l2 := by
  induction l1 with
  | nil => intro s; rfl
  | cons op rest ih => intro s; simp only [List.cons_append, runOps]; exact ih _

/-- C10: `cs()` on the wrapper returns the constraint-system handle of
the wrapped sponge, performs no sponge call, and leaves the whole
wrapper state (flag included) unchanged: inserting a `cs()` call
anywhere in an operation sequence does not change the run, so a tag
absorbed later is still the first material forwarded. -/
theorem c10_cs_frame {q : ℕ} {σ : Type} (G : SpongeGadget q σ)
    (tag : List (ZMod q)) :
    (∀ s : DSSpongeVar σ, DSSpongeVar.csDS G s = G.csG s.sponge)
    ∧ (∀ s : DSSpongeVar σ, stepOp G tag s .csW = s)
    ∧ ∀ (s : DSSpongeVar σ) (ops1 ops2 : List (WrapperOp q)),
        runOps G tag s (ops1 ++ .csW :: ops2) = runOps G tag s (ops1 ++ ops2) := by
  refine ⟨fun s => rfl, fun s => rfl, fun s ops1 ops2 => ?_⟩
  rw [runOps_append, runOps_append]
  rfl

theorem constFp_injective {q : ℕ} {t1 t2 : List (ZMod q)} (h : t1 ≠ t2) :
    t1.map (FpVarE.const (q := q)) ≠ t2.map FpVarE.const := by
  intro hmap
  exact h (List.map_injective_iff.mpr
    (fun a b hab => by injection hab) hmap)

/-- C7: Two wrapper instances over the same wrapped sponge but with
distinct (encoded) domain tags, fed the identical public operation
sequence and then one squeeze: the transcripts of forwarded calls
differ — the first forwarded call of each instance absorbs its own tag — and,
for a wrapped sponge whose squeezed bits distinguish histories with
different first absorptions, the squeeze outputs differ as well. -/
theorem c7_domain_distinctness {q : ℕ} {σ : Type} (G : SpongeGadget q σ)
    (cs : CSState q) (t1 t2 : List (ZMod q)) (ops : List (WrapperOp q)) (n : ℕ)
    (htag : t1 ≠ t2)
    (hout : ∀ (x y : List (FpVarE q)) (hist : List (CallRec q)) (m : ℕ),
      x ≠ y →
      G.bitsOutG (replayCalls G (G.newG cs) (.absorbC x :: hist)) m ≠
        G.bitsOutG (replayCalls G (G.newG cs) (.absorbC y :: hist)) m) :
    ((runOps (loggedGadget G) t1 (DSSpongeVar.newDS (loggedGadget G) cs)
          ops).squeezeBitsDS (loggedGadget G) t1 n).2.sponge.2 ≠
      ((runOps (loggedGadget G) t2 (DSSpongeVar.newDS (loggedGadget G) cs)
          ops).squeezeBitsDS (loggedGadget G) t2 n).2.sponge.2
    ∧ ((runOps (loggedGadget G) t1 (DSSpongeVar.newDS (loggedGadget G) cs)
          ops).squeezeBitsDS (loggedGadget G) t1 n).1 ≠
      ((runOps (loggedGadget G) t2 (DSSpongeVar.newDS (loggedGadget G) cs)
          ops).squeezeBitsDS (loggedGadget G) t2 n).1 := by
  have h1 := runOps_logged G t1 ops (G.newG cs) [] false
  have h2 := runOps_logged G t2 ops (G.newG cs) [] false
  rw [show DSSpongeVar.newDS (loggedGadget G) cs
    = (⟨(G.newG cs, []), false⟩ : DSSpongeVar (σ × List (CallRec q))) from rfl]
  rw [h1, h2]
  cases hF : hasFwd ops
  · simp only [DSSpongeVar.squeezeBitsDS, try_separate_domain, hF,
      Bool.false_or, expectedCalls, Bool.false_eq_true, if_false, if_true,
      List.nil_append, List.cons_append, List.append_nil, List.singleton_append,
      replayCalls, loggedGadget_absorbG, loggedGadget_bitsOutG,
      loggedGadget_squeezeBitsG]
    constructor
    · intro hcontra
      simp only [List.cons.injEq, CallRec.absorbC.injEq] at hcontra
      exact constFp_injective htag hcontra.1
    · exact hout _ _ [] n (constFp_injective htag)
  · simp only [DSSpongeVar.squeezeBitsDS, try_separate_domain, hF,
      Bool.false_or, expectedCalls, Bool.false_eq_true, Bool.true_eq_false,
      if_false, if_true, List.nil_append, List.cons_append, List.append_nil,
      List.singleton_append, loggedGadget_bitsOutG, loggedGadget_squeezeBitsG]
    constructor
    · intro hcontra
      simp only [List.cons.injEq, CallRec.absorbC.injEq] at hcontra
      exact constFp_injective htag hcontra.1
    · exact hout _ _ (forwardedOf ops) n (constFp_injective htag)

theorem replayCalls_recorder (q : ℕ) :
    ∀ (calls : List (CallRec q)) (h : List (CallRec q)),
      replayCalls (recorderGadget q) h calls = h ++ calls := by
  intro calls
  induction calls with
  | nil => intro h; simp [replayCalls]
  | cons c rest ih =>
    intro h
    cases c with
    | absorbC input =>
      show replayCalls (recorderGadget q) (h ++ [CallRec.absorbC input]) rest = _
      rw [ih]
      simp
    | squeezeBytesC n =>
      show replayCalls (recorderGadget q) (h ++ [CallRec.squeezeBytesC n]) rest = _
      rw [ih]
      simp
    | squeezeBitsC n =>
      show replayCalls (recorderGadget q) (h ++ [CallRec.squeezeBitsC n]) rest = _
      rw [ih]
      simp
    | squeezeFieldElementsC n =>
      show replayCalls (recorderGadget q)
        (h ++ [CallRec.squeezeFieldElementsC n]) rest = _
      rw [ih]
      simp
    | squeezeNonnativeSizedC sizes =>
      show replayCalls (recorderGadget q)
        (h ++ [CallRec.squeezeNonnativeSizedC sizes]) rest = _
      rw [ih]
      simp

theorem encFp_injective (q : ℕ) : Function.Injective (encFp (q := q)) := by
  intro a b h
  cases a <;> cases b <;> simp [encFp] at h ⊢
  · exact h
  · exact h

/-- Witness for C7 at a concrete instance: the recording sponge over
`ZMod 2`, tags `[0]` and `[1]`, no preliminary operations, one squeezed
bit. -/
theorem c7_witness :
    ((runOps (loggedGadget (recorderGadget 2)) [0]
          (DSSpongeVar.newDS (loggedGadget (recorderGadget 2))
            ⟨false, 0, [], []⟩) []).squeezeBitsDS
        (loggedGadget (recorderGadget 2)) [0] 1).2.sponge.2 ≠
      ((runOps (loggedGadget (recorderGadget 2)) [1]
          (DSSpongeVar.newDS (loggedGadget (recorderGadget 2))
            ⟨false, 0, [], []⟩) []).squeezeBitsDS
        (loggedGadget (recorderGadget 2)) [1] 1).2.sponge.2
    ∧ ((runOps (loggedGadget (recorderGadget 2)) [0]
          (DSSpongeVar.newDS (loggedGadget (recorderGadget 2))
            ⟨false, 0, [], []⟩) []).squeezeBitsDS
        (loggedGadget (recorderGadget 2)) [0] 1).1 ≠
      ((runOps (loggedGadget (recorderGadget 2)) [1]
          (DSSpongeVar.newDS (loggedGadget (recorderGadget 2))
            ⟨false, 0, [], []⟩) []).squeezeBitsDS
        (loggedGadget (recorderGadget 2)) [1] 1).1 :=
  c7_domain_distinctness (recorderGadget 2) ⟨false, 0, [], []⟩ [0] [1] [] 1
    (by decide)
    (by
      intro x y hist m hxy
      rw [show (recorderGadget 2).newG ⟨false, 0, [], []⟩
        = ([] : List (CallRec 2)) from rfl]
      rw [replayCalls_recorder 2 (.absorbC x :: hist) [],
        replayCalls_recorder 2 (.absorbC y :: hist) []]
      show x.map encFp ≠ y.map encFp
      intro hmap
      exact hxy (List.map_injective_iff.mpr (encFp_injective 2) hmap))

end Sponge
